import Mathlib

/-!
Verification of the diff collection and truncation pipeline of the PR-CLI
repository.  The functions below are shallow embeddings of the JavaScript
sources:

* `truncateDiff`, `filterBinaryFiles`, `isMergeCommit`, `getCommitDiffs`
  come from `src/utils/git.js`;
* `isValidCommitHash` comes from `src/utils/helpers.js`;
* `formatDiffsForAI` comes from `src/services/update.js`.

JavaScript strings are modelled as lists of characters (`JStr`).  The two
external shell invocations (`git rev-list --parents` and `git show`) are
modelled by an explicit environment `GitEnv` mapping a commit hash to the
result of each command, where `Except.error` models a rejected promise.
-/

set_option maxHeartbeats 1000000

/-- A JavaScript string, modelled as its list of characters. -/
abbrev JStr := List Char

/-- Whitespace characters recognised by JavaScript `trim` and the
regular-expression class used in `isMergeCommit` (ASCII whitespace plus
no-break space; the exotic Unicode space characters are irrelevant to the
git output processed here). -/
def isWsChar (c : Char) : Bool :=
  c = ' ' || c = '\t' || c = '\n' || c = '\r' || c = '\x0b' || c = '\x0c' || c = '\xa0'

/-- JavaScript `String.prototype.trim`. -/
def jsTrim (s : JStr) : JStr :=
  ((s.dropWhile isWsChar).reverse.dropWhile isWsChar).reverse

/-- A hexadecimal digit, case-insensitive (the `i` flag of the validation
regular expression in `helpers.js`). -/
def isHexChar (c : Char) : Bool :=
  ('0' ≤ c && c ≤ '9') || ('a' ≤ c && c ≤ 'f') || ('A' ≤ c && c ≤ 'F')

/-- `helpers.js` `isValidCommitHash`: the trimmed string matches a
hexadecimal pattern of length 7 to 40, case-insensitively. -/
def isValidCommitHash (hash : JStr) : Bool :=
  let t := jsTrim hash
  7 ≤ t.length && t.length ≤ 40 && t.all isHexChar

/-- JavaScript `s.split('\n')`: always returns at least one piece. -/
def splitOnNl : JStr → List JStr
  | [] => [[]]
  | c :: rest =>
    if c = '\n' then [] :: splitOnNl rest
    else
      match splitOnNl rest with
      | [] => [[c]]
      | l :: ls => (c :: l) :: ls

/-- JavaScript `lines.join('\n')`. -/
def joinNl : List JStr → JStr
  | [] => []
  | [l] => l
  | l :: ls => l ++ '\n' :: joinNl ls

/-- Decimal digits of a natural number, as produced by JavaScript string
interpolation. -/
def natChars (n : ℕ) : JStr := (Nat.repr n).toList

/-- Decimal digits of an integer, as produced by JavaScript string
interpolation (JavaScript subtraction of lengths is modelled on `ℤ`). -/
def intChars (i : ℤ) : JStr :=
  if i < 0 then '-' :: natChars i.natAbs else natChars i.toNat

/-- The `diff --git` file-section header marker of `git.js`. -/
def diffGitMarker : JStr := "diff --git".toList

/-- The `index ` structural marker of `git.js`. -/
def indexMarker : JStr := "index ".toList

/-- The `---` structural marker of `git.js`. -/
def minusMarker : JStr := "---".toList

/-- The `+++` structural marker of `git.js`. -/
def plusMarker : JStr := "+++".toList

/-- The `Binary files` marker recognised by `filterBinaryFiles`. -/
def binaryMarker : JStr := "Binary files".toList

/-- JavaScript `s.includes(pat)`: some suffix of `s` starts with `pat`. -/
def jsIncludes (pat s : JStr) : Bool :=
  s.tails.any (fun t => pat.isPrefixOf t)

/-- The condition of line 24 of `git.js`: a file-section structural marker
line, always emitted in full by `truncateDiff`. -/
def isStructuralLine (l : JStr) : Bool :=
  diffGitMarker.isPrefixOf l || indexMarker.isPrefixOf l ||
    minusMarker.isPrefixOf l || plusMarker.isPrefixOf l

/-- The per-file elision notice pushed by `truncateDiff`:
`... (N more lines omitted)`. -/
def perFileNotice (n : ℕ) : JStr :=
  "... (".toList ++ natChars n ++ " more lines omitted)".toList

/-- The global truncation notice pushed by `truncateDiff`:
a leading newline then `... [Diff truncated: C characters omitted from
L remaining lines]`. -/
def globalNotice (chars lines : ℤ) : JStr :=
  "\n... [Diff truncated: ".toList ++ intChars chars ++
    " characters omitted from ".toList ++ intChars lines ++
    " remaining lines]".toList

/-- `maxLinesPerFile` constant of `truncateDiff`. -/
def maxLinesPerFile : ℕ := 40

/-- Result record of `truncateDiff` (`content` plus `wasTruncated`). -/
structure TruncResult where
  content : JStr
  wasTruncated : Bool
deriving DecidableEq

/-- The line loop of `truncateDiff` (lines 23 to 55 of `git.js`).
Arguments after the three fixed parameters (`maxSize`, the length of the
whole input and its number of lines, both used only in the global notice):
the remaining lines, `currentSize`, `filesProcessed`, `currentFile`,
`linesInCurrentFile` and the number of lines pushed to `result` so far.
Returns the lines pushed from this point on, and the `wasTruncated` flag. -/
def truncGo (maxSize totalLen totalLines : ℕ) :
    List JStr → ℕ → ℕ → Option JStr → ℕ → ℕ → List JStr × Bool
  | [], _cs, _fp, _cf, lif, _rl =>
    if maxLinesPerFile < lif then ([perFileNotice (lif - maxLinesPerFile)], false)
    else ([], false)
  | line :: rest, cs, fp, cf, lif, rl =>
    if isStructuralLine line then
      if diffGitMarker.isPrefixOf line then
        if cf.isSome ∧ maxLinesPerFile < lif then
          let r := truncGo maxSize totalLen totalLines rest (cs + line.length + 1)
            (fp + 1) (some line) 0 (rl + 2)
          (perFileNotice (lif - maxLinesPerFile) :: line :: r.1, r.2)
        else
          let r := truncGo maxSize totalLen totalLines rest (cs + line.length + 1)
            (fp + 1) (some line) 0 (rl + 1)
          (line :: r.1, r.2)
      else
        let r := truncGo maxSize totalLen totalLines rest (cs + line.length + 1)
          fp cf lif (rl + 1)
        (line :: r.1, r.2)
    else if maxSize < cs + line.length then
      ([globalNotice ((totalLen : ℤ) - (cs : ℤ)) ((totalLines : ℤ) - (rl : ℤ))], true)
    else if lif + 1 ≤ maxLinesPerFile then
      let r := truncGo maxSize totalLen totalLines rest (cs + line.length + 1)
        fp cf (lif + 1) (rl + 1)
      (line :: r.1, r.2)
    else
      truncGo maxSize totalLen totalLines rest cs fp cf (lif + 1) rl

/-- `truncateDiff` of `git.js`: truncates a diff to a maximum size while
preserving structure (the JavaScript default for `maxSize` is 10000; the
call site in `getCommitDiffs` passes 8000). -/
def truncateDiff (diffContent : JStr) (maxSize : ℕ) : TruncResult :=
  if diffContent.length ≤ maxSize then ⟨diffContent, false⟩
  else
    let lines := splitOnNl diffContent
    let r := truncGo maxSize diffContent.length lines.length lines 0 0 none 0 0
    ⟨joinNl r.1, r.2⟩

/-- Instrumentation of the same loop recording only whether the global
budget cutoff branch (line 39 of `git.js`) is taken; the dropped
parameters do not influence that decision. -/
def truncGoCut (maxSize : ℕ) : List JStr → ℕ → ℕ → Bool
  | [], _, _ => false
  | line :: rest, cs, lif =>
    if isStructuralLine line then
      if diffGitMarker.isPrefixOf line then
        truncGoCut maxSize rest (cs + line.length + 1) 0
      else truncGoCut maxSize rest (cs + line.length + 1) lif
    else if maxSize < cs + line.length then true
    else if lif + 1 ≤ maxLinesPerFile then
      truncGoCut maxSize rest (cs + line.length + 1) (lif + 1)
    else truncGoCut maxSize rest cs (lif + 1)

/-- Whether `truncateDiff` takes the global budget cutoff path on the
given input. -/
def tookGlobalCutoff (diffContent : JStr) (maxSize : ℕ) : Bool :=
  if diffContent.length ≤ maxSize then false
  else truncGoCut maxSize (splitOnNl diffContent) 0 0

/-- The line loop of `filterBinaryFiles` (lines 68 to 82 of `git.js`),
carrying the `skipBinary` flag. -/
def filterBLines : Bool → List JStr → List JStr
  | _, [] => []
  | skipB, line :: rest =>
    if binaryMarker.isPrefixOf line then line :: filterBLines true rest
    else
      let skip2 := if diffGitMarker.isPrefixOf line then false else skipB
      if skip2 then filterBLines skip2 rest
      else line :: filterBLines skip2 rest

/-- `filterBinaryFiles` of `git.js`: filters binary file content from git
diff output. -/
def filterBinaryFiles (diffContent : JStr) : JStr :=
  joinNl (filterBLines false (splitOnNl diffContent))

/-- The external git commands consumed by the pipeline, per commit hash:
`parents h` is the result of `git rev-list --parents -n 1 h`, and
`showDiff h isMerge` is the result of the `git show` invocation (whose
command line depends on the merge classification); `Except.error` models
a rejected promise carrying `error.message`. -/
structure GitEnv where
  parents : JStr → Except JStr JStr
  showDiff : JStr → Bool → Except JStr JStr

/-- One step of JavaScript `s.split(/\s+/)`: `acc` is the current token
(reversed), `skipping` is true while consuming a whitespace run. -/
def tokenSplitGo : JStr → JStr → Bool → List JStr
  | [], acc, _ => [acc.reverse]
  | c :: rest, acc, skipping =>
    if isWsChar c then
      if skipping then tokenSplitGo rest [] true
      else acc.reverse :: tokenSplitGo rest [] true
    else tokenSplitGo rest (c :: acc) false

/-- JavaScript `s.split(/\s+/)` (including its leading or trailing empty
tokens when the string starts or ends with whitespace). -/
def jsSplitWs (s : JStr) : List JStr := tokenSplitGo s [] false

/-- `isMergeCommit` of `git.js`: false on an invalid hash, false when the
parent lookup fails, otherwise true iff the whitespace-separated token
count of the trimmed parent line exceeds 2. -/
def isMergeCommit (env : GitEnv) (commitHash : JStr) : Bool :=
  if !isValidCommitHash commitHash then false
  else
    match env.parents commitHash with
    | .error _ => false
    | .ok parents => decide (2 < (jsSplitWs (jsTrim parents)).length)

/-- One result record of `getCommitDiffs`. -/
structure DiffOutcome where
  hash : JStr
  content : JStr
  truncated : Bool
  error : Option JStr
deriving DecidableEq

/-- The aggregate counters accumulated by the loop of `getCommitDiffs`. -/
structure DiffStats where
  totalSize : ℕ
  validCount : ℕ
  skippedCount : ℕ
  mergeCommitsExcluded : ℕ
  binaryFilesFiltered : ℕ
  fetchFailures : ℕ
deriving DecidableEq

/-- The all-zero initial counters of `getCommitDiffs`. -/
def initStats : DiffStats := ⟨0, 0, 0, 0, 0, 0⟩

/-- The `'[empty]'` fallback used for a falsy (empty) hash string. -/
def emptyHashMarker : JStr := "[empty]".toList

/-- The fixed placeholder content for an invalid commit hash. -/
def invalidHashContent : JStr := "[Invalid commit hash - skipped]".toList

/-- The error message recorded for an invalid commit hash. -/
def invalidHashError (hash : JStr) : JStr :=
  "Invalid commit hash format: \"".toList ++ hash ++
    "\". Expected hexadecimal string (7-40 characters).".toList

/-- The fixed placeholder content for an excluded merge commit. -/
def mergeExcludedContent : JStr := "[Merge commit - diff excluded]".toList

/-- The fixed placeholder content for a failed diff fetch. -/
def fetchErrorContent : JStr := "[Error fetching diff]".toList

/-- `MAX_DIFF_SIZE` constant of `getCommitDiffs`. -/
def maxDiffSize : ℕ := 8000

/-- The hash field stored on an outcome: `hash || '[empty]'` on the
invalid-hash path (only the empty string is falsy among strings). -/
def outcomeHashOf (hash : JStr) : JStr :=
  if hash = [] then emptyHashMarker else hash

/-- The body of the `for` loop of `getCommitDiffs` (lines 140 to 217 of
`git.js`) for a single hash: produces this hash's outcome and the updated
counters.  Counter order: totalSize, validCount, skippedCount,
mergeCommitsExcluded, binaryFilesFiltered, fetchFailures. -/
def processHash (env : GitEnv) (includeMergeDiffs : Bool) (hash : JStr)
    (st : DiffStats) : DiffOutcome × DiffStats :=
  if !isValidCommitHash hash then
    (⟨outcomeHashOf hash, invalidHashContent, false, some (invalidHashError hash)⟩,
     ⟨st.totalSize, st.validCount, st.skippedCount + 1, st.mergeCommitsExcluded,
      st.binaryFilesFiltered, st.fetchFailures + 1⟩)
  else
    let isMerge := isMergeCommit env hash
    if isMerge && !includeMergeDiffs then
      (⟨hash, mergeExcludedContent, false, none⟩,
       ⟨st.totalSize, st.validCount + 1, st.skippedCount,
        st.mergeCommitsExcluded + 1, st.binaryFilesFiltered, st.fetchFailures⟩)
    else
      match env.showDiff hash isMerge with
      | .error msg =>
        (⟨hash, fetchErrorContent, false, some msg⟩,
         ⟨st.totalSize, st.validCount, st.skippedCount + 1, st.mergeCommitsExcluded,
          st.binaryFilesFiltered, st.fetchFailures + 1⟩)
      | .ok rawDiff =>
        let hasBinaryFiles := jsIncludes binaryMarker rawDiff
        let diffContent := filterBinaryFiles rawDiff
        let tr := if maxDiffSize < diffContent.length
          then truncateDiff diffContent maxDiffSize
          else ⟨diffContent, false⟩
        (⟨hash, tr.content, tr.wasTruncated, none⟩,
         ⟨st.totalSize + tr.content.length, st.validCount + 1, st.skippedCount,
          st.mergeCommitsExcluded,
          st.binaryFilesFiltered + (if hasBinaryFiles then 1 else 0),
          st.fetchFailures⟩)

/-- The `for` loop of `getCommitDiffs` over the remaining hashes. -/
def getDiffsGo (env : GitEnv) (includeMergeDiffs : Bool) :
    List JStr → DiffStats → List DiffOutcome × DiffStats
  | [], st => ([], st)
  | h :: rest, st =>
    let p := processHash env includeMergeDiffs h st
    let r := getDiffsGo env includeMergeDiffs rest p.2
    (p.1 :: r.1, r.2)

/-- `getCommitDiffs` of `git.js` (the guards for a non-array or empty
input both return the empty outcome list, which coincides with the loop
on `[]`; the non-array case is not representable in the typed model). -/
def getCommitDiffs (env : GitEnv) (commitHashes : List JStr)
    (includeMergeDiffs : Bool) : List DiffOutcome × DiffStats :=
  getDiffsGo env includeMergeDiffs commitHashes initStats

/-- The rendering of JavaScript `undefined` inside a template string. -/
def undefinedLit : JStr := "undefined".toList

/-- The fixed header emitted by `formatDiffsForAI`. -/
def fmtHeader : JStr := "\n\n=== CODE CHANGES ===\n\n".toList

/-- The truncation note appended by `formatDiffsForAI` when an outcome is
marked truncated. -/
def truncNote : JStr := "[Note: This diff was truncated due to size limits]\n\n".toList

/-- The `Commit N: ` label of one block of `formatDiffsForAI`. -/
def commitLabel (n : ℕ) : JStr := "Commit ".toList ++ natChars n ++ ": ".toList

/-- One block of `formatDiffsForAI` for the outcome at a given index with
the (already defaulted) paired message. -/
def diffBlock (index : ℕ) (msg : JStr) (d : DiffOutcome) : JStr :=
  commitLabel (index + 1) ++ msg ++ "\n".toList ++
    "Hash: ".toList ++ d.hash ++ "\n".toList ++
    "```diff\n".toList ++ d.content ++ "\n```\n\n".toList ++
    (if d.truncated then truncNote else [])

/-- The `forEach` of `formatDiffsForAI`; an out-of-range message index
reads as JavaScript `undefined`, rendered as the literal `undefined`. -/
def formatGo (commitMessages : List JStr) : List DiffOutcome → ℕ → JStr
  | [], _ => []
  | d :: rest, index =>
    diffBlock index (commitMessages.getD index undefinedLit) d ++
      formatGo commitMessages rest (index + 1)

/-- `formatDiffsForAI` of `src/services/update.js`. -/
def formatDiffsForAI (diffs : List DiffOutcome) (commitMessages : List JStr) : JStr :=
  fmtHeader ++ formatGo commitMessages diffs 0

/-- Sum of `length + 1` over a list of lines: the size accounting unit of
`truncateDiff` (each pushed line contributes its length plus a newline). -/
def lineSizes : List JStr → ℕ
  | [] => 0
  | l :: ls => l.length + 1 + lineSizes ls

/-- Shape of a single notice line pushed by `truncateDiff`: a per-file
elision notice or the global truncation notice. -/
def noticeLineShape (l : JStr) : Bool :=
  "... (".toList.isPrefixOf l || "\n... [Diff truncated:".toList.isPrefixOf l

/-- Shape of the suffix that a single appended elision notice contributes
to the joined output of `truncateDiff` (the notice line, possibly behind
the newline introduced by `join`). -/
def noticeSuffixShape (nt : JStr) : Bool :=
  "... (".toList.isPrefixOf nt || "\n... (".toList.isPrefixOf nt ||
    "\n... [Diff truncated:".toList.isPrefixOf nt ||
    "\n\n... [Diff truncated:".toList.isPrefixOf nt

/-- Modelled from the spec: the size bound asserted by the specification
for `truncate` on over-budget inputs — the returned text's length is at
most `maxTotalSize` plus the length of exactly one elision notice, the
notice being a suffix of the returned text. -/
@[reducible] def specClaimedSizeBound (t : JStr) (m : ℕ) : Prop :=
  ∃ nt ∈ (truncateDiff t m).content.tails,
    noticeSuffixShape nt = true ∧ (truncateDiff t m).content.length ≤ m + nt.length

/-- A 339-character diff text consisting of twenty structural marker
lines (each starting with `---`). -/
def cexC2 : JStr := joinNl (List.replicate 20 ("--- aaaaaaaaaaaa".toList))

/-- A 89-character diff text of forty-five one-character body lines. -/
def c4Text : JStr := joinNl (List.replicate 45 ['a'])

/-- A text with three short body lines and no structural marker lines. -/
def c2WitnessText : JStr := "aaaa\nbbbb\ncccc".toList

/-- An environment whose parent lookup always fails. -/
def envParentErr : GitEnv :=
  ⟨fun _ => Except.error ("boom".toList), fun _ _ => Except.ok []⟩

/-- An environment whose parent lookup reports three tokens (a merge) and
whose diff fetch succeeds with a small diff. -/
def envThreeParents : GitEnv :=
  ⟨fun _ => Except.ok ("abc1234 def5678 9ab0cde".toList),
   fun _ _ => Except.ok ("diff --git a/f b/f".toList)⟩

/-- An environment with a single parent and a successful small fetch. -/
def envPlain : GitEnv :=
  ⟨fun _ => Except.ok ("abc1234 def5678".toList),
   fun _ _ => Except.ok ("diff --git a/f b/f".toList)⟩

/-- A well-formed commit hash used in concrete witnesses. -/
def hashA : JStr := "abcdef1".toList

/-- A second well-formed commit hash used in concrete witnesses. -/
def hashB : JStr := "1234567".toList

/-- A malformed commit id used in concrete witnesses. -/
def badHash : JStr := "xyz".toList

/-- A sample outcome used in the formatter claims. -/
def d9 : DiffOutcome := ⟨hashA, "some diff".toList, false, none⟩

set_option maxRecDepth 100000

theorem splitOnNl_ne_nil (s : JStr) : splitOnNl s ≠ [] := by
  induction s with
  | nil => simp [splitOnNl]
  | cons c rest ih =>
    simp only [splitOnNl]
    by_cases h : c = '\n'
    · simp [h]
    · simp only [if_neg h]
      cases hs : splitOnNl rest with
      | nil => simp
      | cons l ls => simp

theorem joinNl_splitOnNl (s : JStr) : joinNl (splitOnNl s) = s := by
  induction s with
  | nil => rfl
  | cons c rest ih =>
    simp only [splitOnNl]
    by_cases h : c = '\n'
    · subst h
      rw [if_pos rfl]
      cases hs : splitOnNl rest with
      | nil => exact absurd hs (splitOnNl_ne_nil rest)
      | cons l ls =>
        rw [hs] at ih
        show joinNl ([] :: l :: ls) = '\n' :: rest
        simp only [joinNl]
        rw [ih]
        rfl
    · rw [if_neg h]
      cases hs : splitOnNl rest with
      | nil => exact absurd hs (splitOnNl_ne_nil rest)
      | cons l ls =>
        rw [hs] at ih
        cases ls with
        | nil =>
          show joinNl [c :: l] = c :: rest
          simp only [joinNl]
          simpa using congrArg (c :: ·) ih
        | cons l2 ls2 =>
          show joinNl ((c :: l) :: l2 :: ls2) = c :: rest
          simp only [joinNl] at ih ⊢
          rw [List.cons_append, ih]

theorem splitOnNl_no_nl (l : JStr) (h : '\n' ∉ l) : splitOnNl l = [l] := by
  induction l with
  | nil => rfl
  | cons c rest ih =>
    simp only [List.mem_cons, not_or] at h
    have hc : ¬ c = '\n' := fun e => h.1 e.symm
    simp only [splitOnNl, if_neg hc]
    rw [ih h.2]

theorem splitOnNl_append_nl (l rest : JStr) (h : '\n' ∉ l) :
    splitOnNl (l ++ '\n' :: rest) = l :: splitOnNl rest := by
  induction l with
  | nil => simp [splitOnNl]
  | cons c t ih =>
    simp only [List.mem_cons, not_or] at h
    have hc : ¬ c = '\n' := fun e => h.1 e.symm
    show splitOnNl (c :: (t ++ '\n' :: rest)) = (c :: t) :: splitOnNl rest
    simp only [splitOnNl, if_neg hc]
    rw [ih h.2]

theorem splitOnNl_joinNl (ls : List JStr) (hne : ls ≠ [])
    (h : ∀ l ∈ ls, '\n' ∉ l) : splitOnNl (joinNl ls) = ls := by
  induction ls with
  | nil => exact absurd rfl hne
  | cons l tail ih =>
    cases tail with
    | nil =>
      show splitOnNl (joinNl [l]) = [l]
      simp only [joinNl]
      exact splitOnNl_no_nl l (h l (List.mem_cons_self l []))
    | cons l2 t2 =>
      show splitOnNl (joinNl (l :: l2 :: t2)) = l :: l2 :: t2
      simp only [joinNl]
      rw [splitOnNl_append_nl _ _ (h l (List.mem_cons_self l _))]
      have := ih (by simp) (fun x hx => h x (List.mem_cons_of_mem _ hx))
      simp only [joinNl] at this
      rw [this]

theorem mem_splitOnNl_no_nl (s : JStr) : ∀ l ∈ splitOnNl s, '\n' ∉ l := by
  induction s with
  | nil => intro l hl; simp [splitOnNl] at hl; simp [hl]
  | cons c rest ih =>
    intro l hl
    simp only [splitOnNl] at hl
    by_cases h : c = '\n'
    · rw [if_pos h] at hl
      rcases List.mem_cons.mp hl with h1 | h2
      · simp [h1]
      · exact ih l h2
    · rw [if_neg h] at hl
      cases hs : splitOnNl rest with
      | nil => exact absurd hs (splitOnNl_ne_nil rest)
      | cons m ms =>
        rw [hs] at hl
        rcases List.mem_cons.mp hl with h1 | h2
        · subst h1
          intro hmem
          rcases List.mem_cons.mp hmem with h3 | h4
          · exact h h3.symm
          · exact ih m (hs ▸ List.mem_cons_self m ms) h4
        · exact ih l (hs ▸ List.mem_cons_of_mem m h2)

theorem joinNl_append_singleton (ls : List JStr) (l : JStr) (hne : ls ≠ []) :
    joinNl (ls ++ [l]) = joinNl ls ++ '\n' :: l := by
  induction ls with
  | nil => exact absurd rfl hne
  | cons a tail ih =>
    cases tail with
    | nil => simp [joinNl]
    | cons b t2 =>
      have ih2 := ih (by simp)
      calc joinNl ((a :: b :: t2) ++ [l])
          = a ++ '\n' :: joinNl ((b :: t2) ++ [l]) := rfl
        _ = a ++ '\n' :: (joinNl (b :: t2) ++ '\n' :: l) := by rw [ih2]
        _ = joinNl (a :: b :: t2) ++ '\n' :: l := by
            show _ = (a ++ '\n' :: joinNl (b :: t2)) ++ '\n' :: l
            simp

theorem joinNl_length (ls : List JStr) (hne : ls ≠ []) :
    (joinNl ls).length + 1 = lineSizes ls := by
  induction ls with
  | nil => exact absurd rfl hne
  | cons a tail ih =>
    cases tail with
    | nil => simp [joinNl, lineSizes]
    | cons b t2 =>
      have h2 := ih (by simp)
      simp only [lineSizes] at h2
      show (a ++ '\n' :: joinNl (b :: t2)).length + 1 = _
      simp only [lineSizes, List.length_append, List.length_cons]
      omega

theorem lineSizes_splitOnNl (s : JStr) : lineSizes (splitOnNl s) = s.length + 1 := by
  induction s with
  | nil => simp [splitOnNl, lineSizes]
  | cons c rest ih =>
    simp only [splitOnNl]
    by_cases h : c = '\n'
    · rw [if_pos h]
      simp only [lineSizes, List.length_nil, List.length_cons]
      omega
    · rw [if_neg h]
      cases hs : splitOnNl rest with
      | nil => exact absurd hs (splitOnNl_ne_nil rest)
      | cons m ms =>
        rw [hs] at ih
        simp only [lineSizes, List.length_cons] at ih ⊢
        omega

theorem filterBLines_sublist (ls : List JStr) :
    ∀ s, List.Sublist (filterBLines s ls) ls := by
  induction ls with
  | nil => intro s; simp [filterBLines]
  | cons line rest ih =>
    intro s
    by_cases hb : binaryMarker.isPrefixOf line
    · simp only [filterBLines, if_pos hb]
      exact (ih true).cons₂ line
    · by_cases hg : diffGitMarker.isPrefixOf line
      · simp only [filterBLines, if_neg hb, hg]
        simp only [if_true, Bool.false_eq_true, if_false]
        exact (ih false).cons₂ line
      · cases s with
        | true =>
          simp only [filterBLines, if_neg hb, hg]
          simp only [Bool.false_eq_true, if_false, if_true]
          exact (ih true).cons line
        | false =>
          simp only [filterBLines, if_neg hb, hg]
          simp only [Bool.false_eq_true, if_false]
          exact (ih false).cons₂ line

theorem filterBLines_idem (ls : List JStr) :
    ∀ s, filterBLines s (filterBLines s ls) = filterBLines s ls := by
  induction ls with
  | nil => intro s; simp [filterBLines]
  | cons line rest ih =>
    intro s
    by_cases hb : binaryMarker.isPrefixOf line
    · simp only [filterBLines, if_pos hb]
      rw [ih true]
    · by_cases hg : diffGitMarker.isPrefixOf line
      · simp only [filterBLines, if_neg hb, hg, if_true, Bool.false_eq_true, if_false]
        rw [ih false]
      · cases s with
        | true =>
          simp only [filterBLines, if_neg hb, hg, Bool.false_eq_true, if_false, if_true]
          exact ih true
        | false =>
          simp only [filterBLines, if_neg hb, hg, Bool.false_eq_true, if_false]
          rw [ih false]

theorem filterBLines_false_ne_nil (line : JStr) (rest : List JStr) :
    filterBLines false (line :: rest) ≠ [] := by
  simp only [filterBLines]
  by_cases hb : binaryMarker.isPrefixOf line
  · simp [hb]
  · simp only [if_neg hb]
    by_cases hg : diffGitMarker.isPrefixOf line <;> simp [hg]

/-- Claim C8: stripBinary (filterBinaryFiles) is idempotent: for every
diff text, applying it twice yields the same result as applying it once. -/
theorem claim_c8_theorem (diffContent : JStr) :
    filterBinaryFiles (filterBinaryFiles diffContent) = filterBinaryFiles diffContent := by
  unfold filterBinaryFiles
  cases hs : splitOnNl diffContent with
  | nil => exact absurd hs (splitOnNl_ne_nil diffContent)
  | cons l ls =>
    have hne : filterBLines false (l :: ls) ≠ [] := filterBLines_false_ne_nil l ls
    have hnonl : ∀ x ∈ filterBLines false (l :: ls), '\n' ∉ x := by
      intro x hx
      have hsub : List.Sublist (filterBLines false (l :: ls)) (l :: ls) :=
        filterBLines_sublist _ false
      have hmem : x ∈ l :: ls := hsub.subset hx
      exact mem_splitOnNl_no_nl diffContent x (hs ▸ hmem)
    rw [splitOnNl_joinNl _ hne hnonl, filterBLines_idem]

/-- Claim C3: for every diff text whose length is at most maxSize,
truncateDiff returns the input text unchanged and reports
wasTruncated = false. -/
theorem claim_c3_theorem (diffContent : JStr) (maxSize : ℕ)
    (h : diffContent.length ≤ maxSize) :
    truncateDiff diffContent maxSize = ⟨diffContent, false⟩ := by
  unfold truncateDiff
  rw [if_pos h]

/-- Witness for claim C3 at a concrete input. -/
theorem claim_c3_witness : truncateDiff ("ab".toList) 5 = ⟨"ab".toList, false⟩ :=
  claim_c3_theorem ("ab".toList) 5 (by decide)

theorem isPrefixOf_append_self (a b : JStr) : a.isPrefixOf (a ++ b) = true := by
  induction a with
  | nil => simp [List.isPrefixOf]
  | cons c t ih => simp [List.isPrefixOf, ih]

theorem isPrefixOf_append_weaken (a : JStr) :
    ∀ b c : JStr, a.isPrefixOf b = true → a.isPrefixOf (b ++ c) = true := by
  induction a with
  | nil => intro b c _; simp [List.isPrefixOf]
  | cons x xs ih =>
    intro b c h
    cases b with
    | nil => simp [List.isPrefixOf] at h
    | cons y ys =>
      simp only [List.isPrefixOf, Bool.and_eq_true] at h
      simp only [List.cons_append, List.isPrefixOf, Bool.and_eq_true]
      exact ⟨h.1, ih ys c h.2⟩

theorem noticeLineShape_perFile (n : ℕ) : noticeLineShape (perFileNotice n) = true := by
  have h : "... (".toList.isPrefixOf (perFileNotice n) = true := by
    unfold perFileNotice
    rw [List.append_assoc]
    exact isPrefixOf_append_self _ _
  unfold noticeLineShape
  rw [h, Bool.true_or]

theorem noticeLineShape_global (a b : ℤ) : noticeLineShape (globalNotice a b) = true := by
  have h0 : ("\n... [Diff truncated:".toList).isPrefixOf
      ("\n... [Diff truncated: ".toList) = true := by decide
  have h : ("\n... [Diff truncated:".toList).isPrefixOf (globalNotice a b) = true := by
    unfold globalNotice
    rw [List.append_assoc, List.append_assoc, List.append_assoc]
    exact isPrefixOf_append_weaken _ _ _ h0
  unfold noticeLineShape
  rw [h, Bool.or_true]

theorem noticeSuffixShape_of_line (l : JStr) (h : noticeLineShape l = true) :
    noticeSuffixShape l = true := by
  simp only [noticeLineShape, Bool.or_eq_true] at h
  simp only [noticeSuffixShape, Bool.or_eq_true]
  tauto

theorem noticeSuffixShape_cons_nl (l : JStr) (h : noticeLineShape l = true) :
    noticeSuffixShape ('\n' :: l) = true := by
  simp only [noticeLineShape, Bool.or_eq_true] at h
  rcases h with h | h
  · have hpre : "\n... (".toList.isPrefixOf ('\n' :: l) = true := by
      have he : "\n... (".toList = '\n' :: "... (".toList := by decide
      have hstep : ('\n' :: "... (".toList).isPrefixOf ('\n' :: l) =
          (('\n' : Char) == '\n' && "... (".toList.isPrefixOf l) := rfl
      rw [he, hstep, h, Bool.and_true]
      decide
    unfold noticeSuffixShape
    rw [hpre]
    simp
  · have hpre : "\n\n... [Diff truncated:".toList.isPrefixOf ('\n' :: l) = true := by
      have he : "\n\n... [Diff truncated:".toList =
          '\n' :: "\n... [Diff truncated:".toList := by decide
      have hstep : ('\n' :: "\n... [Diff truncated:".toList).isPrefixOf ('\n' :: l) =
          (('\n' : Char) == '\n' && "\n... [Diff truncated:".toList.isPrefixOf l) := rfl
      rw [he, hstep, h, Bool.and_true]
      decide
    unfold noticeSuffixShape
    rw [hpre]
    simp

theorem truncGo_nostruct (maxSize totalLen totalLines : ℕ) :
    ∀ (rem : List JStr) (cs fp : ℕ) (cf : Option JStr) (lif rl : ℕ),
      (∀ l ∈ rem, isStructuralLine l = false) → cs ≤ maxSize + 1 →
      ∃ pushed nt,
        (truncGo maxSize totalLen totalLines rem cs fp cf lif rl).1 = pushed ++ nt ∧
        cs + lineSizes pushed ≤ maxSize + 1 ∧
        ((nt = [] ∧ pushed = rem) ∨ ∃ l, nt = [l] ∧ noticeLineShape l = true) ∧
        (maxLinesPerFile < lif → nt ≠ []) := by
  intro rem
  induction rem with
  | nil =>
    intro cs fp cf lif rl hns hcs
    by_cases h40 : maxLinesPerFile < lif
    · refine ⟨[], [perFileNotice (lif - maxLinesPerFile)], ?_, ?_, ?_, ?_⟩
      · simp [truncGo, h40]
      · simpa [lineSizes] using hcs
      · exact Or.inr ⟨_, rfl, noticeLineShape_perFile _⟩
      · intro _; simp
    · refine ⟨[], [], ?_, ?_, ?_, ?_⟩
      · simp [truncGo, h40]
      · simpa [lineSizes] using hcs
      · exact Or.inl ⟨rfl, rfl⟩
      · intro h; exact absurd h h40
  | cons line rest ih =>
    intro cs fp cf lif rl hns hcs
    have hline : isStructuralLine line = false := hns line (List.mem_cons_self _ _)
    have hrest : ∀ l ∈ rest, isStructuralLine l = false :=
      fun l hl => hns l (List.mem_cons_of_mem _ hl)
    by_cases hcut : maxSize < cs + line.length
    · refine ⟨[], [globalNotice ((totalLen : ℤ) - (cs : ℤ)) ((totalLines : ℤ) - (rl : ℤ))],
        ?_, ?_, ?_, ?_⟩
      · simp [truncGo, hline, hcut]
      · simpa [lineSizes] using hcs
      · exact Or.inr ⟨_, rfl, noticeLineShape_global _ _⟩
      · intro _; simp
    · by_cases hcap : lif + 1 ≤ maxLinesPerFile
      · have hcs' : cs + line.length + 1 ≤ maxSize + 1 := by omega
        obtain ⟨pushed, nt, heq, hbound, hdisj, hlifc⟩ :=
          ih (cs + line.length + 1) fp cf (lif + 1) (rl + 1) hrest hcs'
        refine ⟨line :: pushed, nt, ?_, ?_, ?_, ?_⟩
        · simp only [truncGo, hline, Bool.false_eq_true, if_false, if_neg hcut, if_pos hcap]
          simp [heq]
        · simp only [lineSizes]
          omega
        · rcases hdisj with ⟨h1, h2⟩ | h
          · exact Or.inl ⟨h1, by rw [h2]⟩
          · exact Or.inr h
        · intro h40
          exfalso
          omega
      · obtain ⟨pushed, nt, heq, hbound, hdisj, hlifc⟩ :=
          ih cs fp cf (lif + 1) rl hrest hcs
        have hntne : nt ≠ [] := hlifc (by omega)
        refine ⟨pushed, nt, ?_, hbound, ?_, fun _ => hntne⟩
        · simp only [truncGo, hline, Bool.false_eq_true, if_false, if_neg hcut, if_neg hcap]
          exact heq
        · rcases hdisj with ⟨h1, _⟩ | h
          · exact absurd h1 hntne
          · exact Or.inr h

/-- Claim C2 (amended): for every diff text longer than maxSize none of
whose lines is a structural marker line, the returned text decomposes as
an emitted prefix of length at most maxSize followed by exactly one
appended elision notice (behind the newline that joining introduces). -/
theorem claim_c2_theorem (text : JStr) (maxSize : ℕ)
    (hns : ∀ l ∈ splitOnNl text, isStructuralLine l = false)
    (hlong : maxSize < text.length) :
    ∃ pre nt, (truncateDiff text maxSize).content = pre ++ nt ∧
      pre.length ≤ maxSize ∧ noticeSuffixShape nt = true := by
  have hnotle : ¬ text.length ≤ maxSize := by omega
  obtain ⟨pushed, nt, heq, hbound, hdisj, _⟩ :=
    truncGo_nostruct maxSize text.length (splitOnNl text).length
      (splitOnNl text) 0 0 none 0 0 hns (by omega)
  rcases hdisj with ⟨hnt, hp⟩ | ⟨l, hnt, hshape⟩
  · exfalso
    rw [hp, lineSizes_splitOnNl] at hbound
    omega
  · subst hnt
    have hcontent : (truncateDiff text maxSize).content = joinNl (pushed ++ [l]) := by
      unfold truncateDiff
      rw [if_neg hnotle]
      show joinNl (truncGo maxSize text.length (splitOnNl text).length
        (splitOnNl text) 0 0 none 0 0).1 = _
      rw [heq]
    cases hpe : pushed with
    | nil =>
      refine ⟨[], l, ?_, by simp, noticeSuffixShape_of_line l hshape⟩
      rw [hcontent, hpe]
      simp [joinNl]
    | cons p ps =>
      refine ⟨joinNl pushed, '\n' :: l, ?_, ?_, noticeSuffixShape_cons_nl l hshape⟩
      · rw [hcontent, joinNl_append_singleton _ _ (by rw [hpe]; simp)]
      · have hjl := joinNl_length pushed (by rw [hpe]; simp)
        omega

/-- Witness for the amended claim C2 at a concrete over-budget input with
no structural marker lines. -/
theorem claim_c2_witness :
    ∃ pre nt, (truncateDiff c2WitnessText 6).content = pre ++ nt ∧
      pre.length ≤ 6 ∧ noticeSuffixShape nt = true :=
  claim_c2_theorem c2WitnessText 6 (by decide) (by decide)

/-- Counterexample to claim C2 as stated: a 339-character input made of
structural marker lines exceeds the 60-character budget, yet truncateDiff
returns it entirely unchanged — its length is not bounded by maxSize plus
the length of one elision notice, and no elision notice occurs in it. -/
theorem claim_c2_counterexample :
    60 < cexC2.length ∧ (truncateDiff cexC2 60).content = cexC2 ∧
      ¬ specClaimedSizeBound cexC2 60 := by decide

theorem truncGo_snd_eq_cut (maxSize totalLen totalLines : ℕ) :
    ∀ (rem : List JStr) (cs fp : ℕ) (cf : Option JStr) (lif rl : ℕ),
      (truncGo maxSize totalLen totalLines rem cs fp cf lif rl).2 =
        truncGoCut maxSize rem cs lif := by
  intro rem
  induction rem with
  | nil =>
    intro cs fp cf lif rl
    by_cases h40 : maxLinesPerFile < lif <;> simp [truncGo, truncGoCut, h40]
  | cons line rest ih =>
    intro cs fp cf lif rl
    by_cases hstruct : isStructuralLine line = true
    · by_cases hgit : diffGitMarker.isPrefixOf line = true
      · by_cases hclose : cf.isSome ∧ maxLinesPerFile < lif
        · simp only [truncGo, truncGoCut, hstruct, hgit, if_true, if_pos hclose]
          exact ih _ _ _ _ _
        · simp only [truncGo, truncGoCut, hstruct, hgit, if_true, if_neg hclose]
          exact ih _ _ _ _ _
      · simp only [truncGo, truncGoCut, hstruct, if_true, hgit, Bool.false_eq_true, if_false]
        exact ih _ _ _ _ _
    · have hs : isStructuralLine line = false := by
        cases h : isStructuralLine line
        · rfl
        · exact absurd h hstruct
      by_cases hcut : maxSize < cs + line.length
      · simp [truncGo, truncGoCut, hs, hcut]
      · by_cases hcap : lif + 1 ≤ maxLinesPerFile
        · simp only [truncGo, truncGoCut, hs, Bool.false_eq_true, if_false,
            if_neg hcut, if_pos hcap]
          exact ih _ _ _ _ _
        · simp only [truncGo, truncGoCut, hs, Bool.false_eq_true, if_false,
            if_neg hcut, if_neg hcap]
          exact ih _ _ _ _ _

/-- Claim C4: truncateDiff reports wasTruncated = true exactly when the
global budget cutoff path is taken; in particular an input processed to
the end with lines dropped only by the per-file cap (here forty-five
one-character lines against a budget of 85) comes back altered by a
per-file elision notice yet still reports wasTruncated = false. -/
theorem claim_c4_theorem :
    (∀ (text : JStr) (maxSize : ℕ),
      (truncateDiff text maxSize).wasTruncated = tookGlobalCutoff text maxSize) ∧
    (truncateDiff c4Text 85).wasTruncated = false ∧
      (truncateDiff c4Text 85).content ≠ c4Text ∧
      tookGlobalCutoff c4Text 85 = false := by
  refine ⟨?_, by decide, by decide, by decide⟩
  intro text maxSize
  unfold truncateDiff tookGlobalCutoff
  by_cases h : text.length ≤ maxSize
  · rw [if_pos h, if_pos h]
  · rw [if_neg h, if_neg h]
    exact truncGo_snd_eq_cut _ _ _ _ _ _ _ _ _

theorem processHash_invalid (env : GitEnv) (inc : Bool) (h : JStr) (st : DiffStats)
    (hv : isValidCommitHash h = false) :
    processHash env inc h st =
      (⟨outcomeHashOf h, invalidHashContent, false, some (invalidHashError h)⟩,
       ⟨st.totalSize, st.validCount, st.skippedCount + 1, st.mergeCommitsExcluded,
        st.binaryFilesFiltered, st.fetchFailures + 1⟩) := by
  simp only [processHash, hv, Bool.not_false, if_true]

theorem processHash_merge (env : GitEnv) (inc : Bool) (h : JStr) (st : DiffStats)
    (hv : isValidCommitHash h = true) (hm : (isMergeCommit env h && !inc) = true) :
    processHash env inc h st =
      (⟨h, mergeExcludedContent, false, none⟩,
       ⟨st.totalSize, st.validCount + 1, st.skippedCount,
        st.mergeCommitsExcluded + 1, st.binaryFilesFiltered, st.fetchFailures⟩) := by
  simp only [processHash, hv, hm, Bool.not_true, Bool.false_eq_true, if_false, if_true]

theorem processHash_fetchErr (env : GitEnv) (inc : Bool) (h : JStr) (st : DiffStats)
    (hv : isValidCommitHash h = true) (hm : (isMergeCommit env h && !inc) = false)
    (e : JStr) (hsd : env.showDiff h (isMergeCommit env h) = Except.error e) :
    processHash env inc h st =
      (⟨h, fetchErrorContent, false, some e⟩,
       ⟨st.totalSize, st.validCount, st.skippedCount + 1, st.mergeCommitsExcluded,
        st.binaryFilesFiltered, st.fetchFailures + 1⟩) := by
  simp only [processHash, hv, hm, hsd, Bool.not_true, Bool.false_eq_true, if_false]

theorem processHash_ok_fst (env : GitEnv) (inc : Bool) (h : JStr) (st : DiffStats)
    (hv : isValidCommitHash h = true) (hm : (isMergeCommit env h && !inc) = false)
    (raw : JStr) (hsd : env.showDiff h (isMergeCommit env h) = Except.ok raw) :
    (processHash env inc h st).1 =
      ⟨h,
       (if maxDiffSize < (filterBinaryFiles raw).length
        then truncateDiff (filterBinaryFiles raw) maxDiffSize
        else ⟨filterBinaryFiles raw, false⟩).content,
       (if maxDiffSize < (filterBinaryFiles raw).length
        then truncateDiff (filterBinaryFiles raw) maxDiffSize
        else ⟨filterBinaryFiles raw, false⟩).wasTruncated,
       none⟩ := by
  simp only [processHash, hv, hm, hsd, Bool.not_true, Bool.false_eq_true, if_false]

theorem valid_ne_nil (h : JStr) (hv : isValidCommitHash h = true) : h ≠ [] := by
  intro e
  subst e
  exact absurd hv (by decide)

theorem outcomeHashOf_valid (h : JStr) (hv : isValidCommitHash h = true) :
    outcomeHashOf h = h := by
  unfold outcomeHashOf
  rw [if_neg (valid_ne_nil h hv)]

theorem processHash_fst_hash (env : GitEnv) (inc : Bool) (h : JStr) (st : DiffStats) :
    (processHash env inc h st).1.hash = outcomeHashOf h := by
  cases hv : isValidCommitHash h with
  | false => rw [processHash_invalid env inc h st hv]
  | true =>
    cases hm : isMergeCommit env h && !inc with
    | true => rw [processHash_merge env inc h st hv hm, outcomeHashOf_valid h hv]
    | false =>
      cases hsd : env.showDiff h (isMergeCommit env h) with
      | error e =>
        rw [processHash_fetchErr env inc h st hv hm e hsd, outcomeHashOf_valid h hv]
      | ok raw =>
        rw [processHash_ok_fst env inc h st hv hm raw hsd, outcomeHashOf_valid h hv]

theorem processHash_fst_st (env : GitEnv) (inc : Bool) (h : JStr) (st st' : DiffStats) :
    (processHash env inc h st).1 = (processHash env inc h st').1 := by
  cases hv : isValidCommitHash h with
  | false => rw [processHash_invalid env inc h st hv, processHash_invalid env inc h st' hv]
  | true =>
    cases hm : isMergeCommit env h && !inc with
    | true => rw [processHash_merge env inc h st hv hm, processHash_merge env inc h st' hv hm]
    | false =>
      cases hsd : env.showDiff h (isMergeCommit env h) with
      | error e =>
        rw [processHash_fetchErr env inc h st hv hm e hsd,
          processHash_fetchErr env inc h st' hv hm e hsd]
      | ok raw =>
        rw [processHash_ok_fst env inc h st hv hm raw hsd,
          processHash_ok_fst env inc h st' hv hm raw hsd]

theorem getDiffsGo_fst_map_hash (env : GitEnv) (inc : Bool) :
    ∀ (hashes : List JStr) (st : DiffStats),
      ((getDiffsGo env inc hashes st).1).map DiffOutcome.hash = hashes.map outcomeHashOf := by
  intro hashes
  induction hashes with
  | nil => intro st; simp [getDiffsGo]
  | cons h rest ih =>
    intro st
    simp only [getDiffsGo, List.map_cons]
    rw [processHash_fst_hash, ih]

/-- Claim C1: getCommitDiffs returns exactly one DiffOutcome per input
id, in input order: the outcome list has the same length as the input
list, and position by position the outcome's hash is the input id (with
the empty id replaced by the `[empty]` marker on the invalid path). -/
theorem claim_c1_theorem (env : GitEnv) (inc : Bool) (hashes : List JStr) :
    (getCommitDiffs env hashes inc).1.length = hashes.length ∧
      ((getCommitDiffs env hashes inc).1).map DiffOutcome.hash = hashes.map outcomeHashOf := by
  have hm := getDiffsGo_fst_map_hash env inc hashes initStats
  refine ⟨?_, hm⟩
  have := congrArg List.length hm
  simpa using this

/-- Claim C5: for a valid revision classified as a merge while
includeMergeDiffs is false, the loop body appends the fixed
merge-excluded placeholder outcome with error = null and truncated =
false (untouched by sanitising or truncation), counts it toward
validCount and mergeCommitsExcluded, and leaves totalSize unchanged. -/
theorem claim_c5_theorem (env : GitEnv) (h : JStr) (st : DiffStats)
    (hv : isValidCommitHash h = true) (hm : isMergeCommit env h = true) :
    processHash env false h st =
      (⟨h, mergeExcludedContent, false, none⟩,
       ⟨st.totalSize, st.validCount + 1, st.skippedCount,
        st.mergeCommitsExcluded + 1, st.binaryFilesFiltered, st.fetchFailures⟩) :=
  processHash_merge env false h st hv (by rw [hm]; rfl)

/-- Witness for claim C5 at a concrete merge commit. -/
theorem claim_c5_witness :
    processHash envThreeParents false hashA initStats =
      (⟨hashA, mergeExcludedContent, false, none⟩,
       ⟨initStats.totalSize, initStats.validCount + 1, initStats.skippedCount,
        initStats.mergeCommitsExcluded + 1, initStats.binaryFilesFiltered,
        initStats.fetchFailures⟩) :=
  claim_c5_theorem envThreeParents hashA initStats (by decide) (by decide)

theorem getDiffsGo_fst_st (env : GitEnv) (inc : Bool) :
    ∀ (hashes : List JStr) (st st' : DiffStats),
      (getDiffsGo env inc hashes st).1 = (getDiffsGo env inc hashes st').1 := by
  intro hashes
  induction hashes with
  | nil => intro st st'; rfl
  | cons h rest ih =>
    intro st st'
    simp only [getDiffsGo]
    rw [processHash_fst_st env inc h st st', ih _ _]

theorem getDiffsGo_fst_append (env : GitEnv) (inc : Bool) :
    ∀ (xs ys : List JStr) (st : DiffStats),
      (getDiffsGo env inc (xs ++ ys) st).1 =
        (getDiffsGo env inc xs st).1 ++
          (getDiffsGo env inc ys ((getDiffsGo env inc xs st).2)).1 := by
  intro xs
  induction xs with
  | nil => intro ys st; simp [getDiffsGo]
  | cons x rest ih =>
    intro ys st
    simp only [List.cons_append, getDiffsGo, List.cons_append]
    rw [show List.append rest ys = rest ++ ys from rfl, ih]

theorem processHash_err_of_fail (env : GitEnv) (inc : Bool) (h : JStr) (st : DiffStats)
    (hfail : isValidCommitHash h = false ∨
      ∃ e, env.showDiff h (isMergeCommit env h) = Except.error e ∧
        (isMergeCommit env h = false ∨ inc = true)) :
    (processHash env inc h st).1.error ≠ none := by
  cases hv : isValidCommitHash h with
  | false => rw [processHash_invalid env inc h st hv]; simp
  | true =>
    rcases hfail with hbad | ⟨e, hsd, hnm⟩
    · rw [hv] at hbad; exact absurd hbad (by simp)
    · have hm : (isMergeCommit env h && !inc) = false := by
        rcases hnm with h1 | h1 <;> rw [h1] <;> simp
      rw [processHash_fetchErr env inc h st hv hm e hsd]
      simp

/-- Claim C6: no single revision's failure aborts the batch.  For any
surrounding batches xs and ys, an id h that is invalid or whose fetch
fails still yields its own errored placeholder outcome, and the outcomes
for xs and ys are produced exactly as they would be on their own. -/
theorem claim_c6_theorem (env : GitEnv) (inc : Bool) (xs ys : List JStr) (h : JStr)
    (hfail : isValidCommitHash h = false ∨
      ∃ e, env.showDiff h (isMergeCommit env h) = Except.error e ∧
        (isMergeCommit env h = false ∨ inc = true)) :
    (getCommitDiffs env (xs ++ h :: ys) inc).1 =
        (getCommitDiffs env xs inc).1 ++
          (processHash env inc h initStats).1 :: (getCommitDiffs env ys inc).1 ∧
      (processHash env inc h initStats).1.error ≠ none := by
  refine ⟨?_, processHash_err_of_fail env inc h initStats hfail⟩
  unfold getCommitDiffs
  rw [getDiffsGo_fst_append env inc xs (h :: ys) initStats]
  congr 1
  simp only [getDiffsGo]
  rw [processHash_fst_st env inc h _ initStats, getDiffsGo_fst_st env inc ys _ initStats]

/-- Witness for claim C6: a batch of three ids whose middle id is
malformed still yields the outcomes of the first and third ids around
the errored placeholder. -/
theorem claim_c6_witness :
    (getCommitDiffs envPlain ([hashA] ++ badHash :: [hashB]) false).1 =
        (getCommitDiffs envPlain [hashA] false).1 ++
          (processHash envPlain false badHash initStats).1 ::
            (getCommitDiffs envPlain [hashB] false).1 ∧
      (processHash envPlain false badHash initStats).1.error ≠ none :=
  claim_c6_theorem envPlain false [hashA] [hashB] badHash (Or.inl (by decide))

theorem processHash_err_trunc (env : GitEnv) (inc : Bool) (h : JStr) (st : DiffStats) :
    (processHash env inc h st).1.error ≠ none →
      (processHash env inc h st).1.truncated = false := by
  cases hv : isValidCommitHash h with
  | false => rw [processHash_invalid env inc h st hv]; intro _; rfl
  | true =>
    cases hm : isMergeCommit env h && !inc with
    | true => rw [processHash_merge env inc h st hv hm]; intro hc; simp at hc
    | false =>
      cases hsd : env.showDiff h (isMergeCommit env h) with
      | error e => rw [processHash_fetchErr env inc h st hv hm e hsd]; intro _; rfl
      | ok raw => rw [processHash_ok_fst env inc h st hv hm raw hsd]; intro hc; simp at hc

theorem getDiffsGo_err_trunc (env : GitEnv) (inc : Bool) :
    ∀ (hashes : List JStr) (st : DiffStats) (o : DiffOutcome),
      o ∈ (getDiffsGo env inc hashes st).1 → o.error ≠ none → o.truncated = false := by
  intro hashes
  induction hashes with
  | nil => intro st o ho; simp [getDiffsGo] at ho
  | cons h rest ih =>
    intro st o ho herr
    simp only [getDiffsGo] at ho
    rcases List.mem_cons.mp ho with h1 | h2
    · subst h1
      exact processHash_err_trunc env inc h st herr
    · exact ih _ o h2 herr

/-- Claim C10: every DiffOutcome produced by getCommitDiffs with a
non-null error has truncated = false: no outcome is simultaneously
marked errored and truncated. -/
theorem claim_c10_theorem (env : GitEnv) (inc : Bool) (hashes : List JStr)
    (o : DiffOutcome) (ho : o ∈ (getCommitDiffs env hashes inc).1)
    (herr : o.error ≠ none) : o.truncated = false :=
  getDiffsGo_err_trunc env inc hashes initStats o ho herr

/-- Witness for claim C10 at the errored outcome of a malformed id. -/
theorem claim_c10_witness :
    (⟨badHash, invalidHashContent, false, some (invalidHashError badHash)⟩
      : DiffOutcome).truncated = false :=
  claim_c10_theorem envPlain false [badHash]
    ⟨badHash, invalidHashContent, false, some (invalidHashError badHash)⟩
    (by decide) (by decide)

/-- Claim C7: isMergeCommit fails open — any error from the external
parent lookup yields false — and on a successful lookup for a valid hash
it returns true exactly when the whitespace-separated token count of the
trimmed parent-list line exceeds 2. -/
theorem claim_c7_theorem (env : GitEnv) (h : JStr) :
    (∀ e, env.parents h = Except.error e → isMergeCommit env h = false) ∧
    (∀ p, isValidCommitHash h = true → env.parents h = Except.ok p →
      (isMergeCommit env h = true ↔ 2 < (jsSplitWs (jsTrim p)).length)) := by
  constructor
  · intro e he
    unfold isMergeCommit
    cases hv : isValidCommitHash h with
    | false => rfl
    | true =>
      rw [he]
      rfl
  · intro p hv hp
    unfold isMergeCommit
    rw [hv, hp]
    simp

/-- Witness for claim C7: a failing parent lookup yields false, and a
three-token parent line yields true. -/
theorem claim_c7_witness :
    isMergeCommit envParentErr hashA = false ∧
      isMergeCommit envThreeParents hashA = true := by
  constructor
  · exact (claim_c7_theorem envParentErr hashA).1 ("boom".toList) rfl
  · exact ((claim_c7_theorem envThreeParents hashA).2
      ("abc1234 def5678 9ab0cde".toList) (by decide) rfl).mpr (by decide)

theorem getD_past_end (msgs : List JStr) :
    ∀ i, msgs.length ≤ i → msgs.getD i undefinedLit = undefinedLit := by
  induction msgs with
  | nil => intro i _; simp [List.getD]
  | cons m ms ih =>
    intro i hi
    cases i with
    | zero => simp at hi
    | succ j =>
      simp only [List.getD_cons_succ]
      exact ih j (by simpa using hi)

theorem formatGo_undef (msgs : List JStr) :
    ∀ (diffs : List DiffOutcome) (k i : ℕ), i < diffs.length → msgs.length ≤ k + i →
      ∃ pre post, formatGo msgs diffs k =
        pre ++ (commitLabel (k + i + 1) ++ (undefinedLit ++ post)) := by
  intro diffs
  induction diffs with
  | nil => intro k i hi _; simp at hi
  | cons d rest ih =>
    intro k i hi hlen
    cases i with
    | zero =>
      refine ⟨[], "\n".toList ++ ("Hash: ".toList ++ (d.hash ++ ("\n".toList ++
        ("```diff\n".toList ++ (d.content ++ ("\n```\n\n".toList ++
          ((if d.truncated then truncNote else []) ++
            formatGo msgs rest (k + 1)))))))), ?_⟩
      have hu : msgs.getD k undefinedLit = undefinedLit :=
        getD_past_end msgs k (by simpa using hlen)
      simp only [formatGo, diffBlock, hu, List.append_assoc, List.nil_append]
    | succ j =>
      have hj : j < rest.length := by simpa using hi
      have hl : msgs.length ≤ (k + 1) + j := by omega
      obtain ⟨pre, post, heq⟩ := ih (k + 1) j hj hl
      refine ⟨diffBlock k (msgs.getD k undefinedLit) d ++ pre, post, ?_⟩
      have harith : k + 1 + j = k + (j + 1) := by omega
      rw [harith] at heq
      simp only [formatGo, heq, List.append_assoc]

/-- Claim C9 (amended): formatDiffsForAI performs no length validation
and reports no error: whenever the message list is shorter than the
outcome list, it still produces the full formatted output, in which each
outcome at a message-less index i carries the block label `Commit i+1: `
followed immediately by the literal text `undefined`. -/
theorem claim_c9_theorem (diffs : List DiffOutcome) (msgs : List JStr) (i : ℕ)
    (h1 : msgs.length ≤ i) (h2 : i < diffs.length) :
    ∃ pre post, formatDiffsForAI diffs msgs =
      pre ++ (commitLabel (i + 1) ++ (undefinedLit ++ post)) := by
  obtain ⟨pre, post, heq⟩ := formatGo_undef msgs diffs 0 i h2 (by omega)
  rw [Nat.zero_add] at heq
  refine ⟨fmtHeader ++ pre, post, ?_⟩
  unfold formatDiffsForAI
  rw [heq, List.append_assoc]

/-- Witness for the amended claim C9 at a concrete mismatched call. -/
theorem claim_c9_witness :
    ∃ pre post, formatDiffsForAI [d9] [] =
      pre ++ (commitLabel (0 + 1) ++ (undefinedLit ++ post)) :=
  claim_c9_theorem [d9] [] 0 (by decide) (by decide)

/-- Counterexample to claim C9 as stated: a call with one outcome and
zero messages (mismatched lengths) is not rejected — full per-item
output is produced beyond the fixed header, silently rendering the
missing message as the literal `undefined`. -/
theorem claim_c9_counterexample :
    ([d9] : List DiffOutcome).length ≠ ([] : List JStr).length ∧
      formatDiffsForAI [d9] [] ≠ fmtHeader ∧
      fmtHeader.length < (formatDiffsForAI [d9] []).length ∧
      jsIncludes undefinedLit (formatDiffsForAI [d9] []) = true := by decide
